import Mathlib

/-!
Verification of the stock-bot data pipeline (`data_source.py`, `utils/chart_utils.py`).

Python strings are modelled as lists of Unicode code points (`PyStr := List ℕ`),
floats as exact rationals `ℚ`, and the pandas float results of the KDJ indicator
as an extended type `PF` with `nan`/`±inf` so that division by zero behaves as in
IEEE arithmetic.  Blocking provider calls are abstracted as pure functions
supplying one outcome (or row set) per attempt.
-/

/-! ### Python string model: code points, character classes, `strip`/`upper`/`lower` -/

/-- Python strings as lists of Unicode code points. -/
abbrev PyStr := List ℕ

/-- Code points of a Lean string literal, used to write concrete Python strings. -/
def pyStr (s : String) : PyStr := s.data.map Char.toNat

/-- ASCII decimal digit, the `\d` class of the code's regexes (codes 48–57). -/
def DigN (n : ℕ) : Prop := 48 ≤ n ∧ n ≤ 57

/-- ASCII uppercase letter (codes 65–90). -/
def UpN (n : ℕ) : Prop := 65 ≤ n ∧ n ≤ 90

/-- ASCII lowercase letter (codes 97–122). -/
def LowN (n : ℕ) : Prop := 97 ≤ n ∧ n ≤ 122

/-- ASCII letter, the `[A-Za-z]` class of the code's regexes. -/
def AlN (n : ℕ) : Prop := UpN n ∨ LowN n

instance (n : ℕ) : Decidable (DigN n) := by unfold DigN; infer_instance
instance (n : ℕ) : Decidable (UpN n) := by unfold UpN; infer_instance
instance (n : ℕ) : Decidable (LowN n) := by unfold LowN; infer_instance
instance (n : ℕ) : Decidable (AlN n) := by unfold AlN; infer_instance

/-- Every character is a decimal digit (`^\d{k}$` patterns). -/
def DigStr (l : PyStr) : Prop := ∀ n ∈ l, DigN n

/-- Every character is an ASCII letter (`[A-Za-z]{k}` patterns). -/
def AlStr (l : PyStr) : Prop := ∀ n ∈ l, AlN n

instance (l : PyStr) : Decidable (DigStr l) := by unfold DigStr; infer_instance
instance (l : PyStr) : Decidable (AlStr l) := by unfold AlStr; infer_instance

/-- ASCII `str.upper()` on one code point. -/
def upC (n : ℕ) : ℕ := if LowN n then n - 32 else n

/-- ASCII `str.lower()` on one code point. -/
def lowC (n : ℕ) : ℕ := if UpN n then n + 32 else n

/-- ASCII whitespace recognised by `str.strip()`. -/
def isSp (n : ℕ) : Bool := decide (n = 32 ∨ n = 9 ∨ n = 10 ∨ n = 13 ∨ n = 11 ∨ n = 12)

/-- Python `str.strip()`: drop whitespace from both ends. -/
def pyStrip (l : PyStr) : PyStr := ((l.dropWhile isSp).reverse.dropWhile isSp).reverse

/-- Python `ts_code.strip().upper()` (line 124 of `data_source.py`). -/
def upperStrip (l : PyStr) : PyStr := (pyStrip l).map upC

/-! ### Symbol normaliser `_validate_and_correct_stock_code` (`data_source.py` 118–174) -/

/-- The canonical-pattern test `^(\d{6}\.(SZ|SH)|\d{5}\.HK|[A-Za-z]{1,5}\.US)$`
(line 120): either six digits and `.SZ`/`.SH`, or five digits and `.HK`, or one
to five letters and `.US`. -/
def matchStandard (l : PyStr) : Prop :=
  (l.length = 9 ∧ DigStr (l.take 6) ∧ (l.drop 6 = pyStr ".SZ" ∨ l.drop 6 = pyStr ".SH"))
  ∨ (l.length = 8 ∧ DigStr (l.take 5) ∧ l.drop 5 = pyStr ".HK")
  ∨ (4 ≤ l.length ∧ l.length ≤ 8 ∧ AlStr (l.take (l.length - 3))
       ∧ l.drop (l.length - 3) = pyStr ".US")

instance (l : PyStr) : Decidable (matchStandard l) := by unfold matchStandard; infer_instance

/-- Correction rule 2 (lines 126–131): a bare six-digit code is routed by its
leading digit, `6`/`9`/`5` to `.SH` and `0`/`1`/`2`/`3` to `.SZ`; any other
leading digit falls through to the next rule. -/
def rule2 (t : PyStr) : Option PyStr :=
  if t.length = 6 ∧ DigStr t then
    if t.take 1 = pyStr "6" ∨ t.take 1 = pyStr "9" ∨ t.take 1 = pyStr "5" then
      some (t ++ pyStr ".SH")
    else if t.take 1 = pyStr "0" ∨ t.take 1 = pyStr "1" ∨ t.take 1 = pyStr "2"
        ∨ t.take 1 = pyStr "3" then
      some (t ++ pyStr ".SZ")
    else none
  else none

/-- Correction rule 3 (lines 133–137): `^(sh|sz)(\d{6})$` on the lowercased code
becomes `CODE.SH` / `CODE.SZ`. -/
def rule3 (t : PyStr) : Option PyStr :=
  let lt := t.map lowC
  if lt.length = 8 ∧ lt.take 2 = pyStr "sh" ∧ DigStr (lt.drop 2) then
    some (lt.drop 2 ++ pyStr ".SH")
  else if lt.length = 8 ∧ lt.take 2 = pyStr "sz" ∧ DigStr (lt.drop 2) then
    some (lt.drop 2 ++ pyStr ".SZ")
  else none

/-- Correction rule 4 (lines 139–146): `^\d{6}\.[A-Za-z]{2,3}$` with a suffix
alias (`SHA`/`SHH`/`SS`/`SH*` or `SZE`/`SZA`/`SZ0`/`SZ*`); an unknown alias
falls through to the next rule. -/
def rule4 (t : PyStr) : Option PyStr :=
  if (t.length = 9 ∨ t.length = 10) ∧ DigStr (t.take 6)
      ∧ (t.drop 6).take 1 = pyStr "." ∧ AlStr (t.drop 7) then
    let code := t.take 6
    let suf := (t.drop 7).map upC
    if suf = pyStr "SHA" ∨ suf = pyStr "SHH" ∨ suf = pyStr "SS" ∨ suf.take 2 = pyStr "SH" then
      some (code ++ pyStr ".SH")
    else if suf = pyStr "SZE" ∨ suf = pyStr "SZA" ∨ suf = pyStr "SZ0"
        ∨ suf.take 2 = pyStr "SZ" then
      some (code ++ pyStr ".SZ")
    else none
  else none

/-- Correction rule 5 (lines 148–150): `^(sh|sz)\.\d{6}$` on the lowercased code
becomes `CODE.SH` / `CODE.SZ`. -/
def rule5 (t : PyStr) : Option PyStr :=
  let lt := t.map lowC
  if lt.length = 9 ∧ (lt.take 3 = pyStr "sh." ∨ lt.take 3 = pyStr "sz.") ∧ DigStr (lt.drop 3) then
    some (lt.drop 3 ++ pyStr "." ++ (lt.take 2).map upC)
  else none

/-- Pad a digit string to five characters with leading zeros (`str.zfill(5)`). -/
def zfill5 (l : PyStr) : PyStr := List.replicate (5 - l.length) 48 ++ l

/-- Correction rule 6 (lines 152–160): `^hk(\d{1,5})$` on the lowercased code,
zero-padded to five digits plus `.HK`. -/
def rule6 (t : PyStr) : Option PyStr :=
  let lt := t.map lowC
  if lt.take 2 = pyStr "hk" ∧ 1 ≤ (lt.drop 2).length ∧ (lt.drop 2).length ≤ 5
      ∧ DigStr (lt.drop 2) then
    some (zfill5 (lt.drop 2) ++ pyStr ".HK")
  else none

/-- Correction rule 7 (lines 153–163): `^(\d{1,5})\.hk$` on the lowercased code,
zero-padded to five digits plus `.HK`. -/
def rule7 (t : PyStr) : Option PyStr :=
  let lt := t.map lowC
  if 4 ≤ lt.length ∧ lt.length ≤ 8 ∧ DigStr (lt.take (lt.length - 3))
      ∧ lt.drop (lt.length - 3) = pyStr ".hk" then
    some (zfill5 (lt.take (lt.length - 3)) ++ pyStr ".HK")
  else none

/-- Correction rule 8 (lines 165–170): `^us\.([a-zA-Z]{1,5})$` on the lowercased
code, with the ticker uppercased plus `.US`. -/
def rule8 (t : PyStr) : Option PyStr :=
  let lt := t.map lowC
  if 4 ≤ lt.length ∧ lt.length ≤ 8 ∧ lt.take 3 = pyStr "us." ∧ AlStr (lt.drop 3) then
    some ((lt.drop 3).map upC ++ pyStr ".US")
  else none

/-- Correction rule 9 (lines 171–172): a bare one-to-five-letter ticker gets
`.US` appended. -/
def rule9 (t : PyStr) : Option PyStr :=
  if 1 ≤ t.length ∧ t.length ≤ 5 ∧ AlStr t then some (t ++ pyStr ".US") else none

/-- First correction rule that fires on the stripped-uppercased code. -/
def rulesOut (t : PyStr) : Option PyStr :=
  rule2 t <|> rule3 t <|> rule4 t <|> rule5 t <|> rule6 t <|> rule7 t <|> rule8 t <|> rule9 t

/-- The whole of `_validate_and_correct_stock_code`: return a canonical code
as-is; otherwise strip and uppercase the input, try the correction rules in
order, and if none fires return the stripped-uppercased code (line 174). -/
def correctCode (l : PyStr) : PyStr :=
  if matchStandard l then l
  else
    let t := upperStrip l
    (rulesOut t).getD t

/-! ### Crypto symbol normaliser `_normalize_crypto_symbol` (`data_source.py` 735–754) -/

/-- Python `s.endswith(q)`. -/
def endsL (s q : PyStr) : Prop := q.length ≤ s.length ∧ s.drop (s.length - q.length) = q

instance (s q : PyStr) : Decidable (endsL s q) := by unfold endsL; infer_instance

/-- Python `symbol.upper().strip()` (line 740). -/
def cCanon (s : PyStr) : PyStr := pyStrip (s.map upC)

/-- The whole of `_normalize_crypto_symbol`: empty input returns empty; a symbol
already ending in a supported quote currency and strictly longer than it is
returned as-is; a symbol equal to the requested quote currency and itself a
supported currency is returned as-is; otherwise the quote currency is
appended. -/
def normCryptoSymbol (supported : List PyStr) (defVs : PyStr)
    (symbol : PyStr) (vsArg : Option PyStr) : PyStr :=
  if symbol = [] then []
  else
    let sym := cCanon symbol
    let vs := (match vsArg with
      | some v => if v = [] then defVs else v
      | none => defVs).map upC
    match supported.find? (fun q => decide (endsL sym q ∧ q.length < sym.length)) with
    | some _ => sym
    | none =>
      if sym ∈ supported ∧ sym = vs then sym
      else sym ++ vs

/-- Default `supported_vs_currencies` configuration (line 52). -/
def defaultSupported : List PyStr := [pyStr "USDT", pyStr "BTC", pyStr "ETH", pyStr "BNB"]

/-- Default `default_vs_currency` configuration (line 51). -/
def defaultVs : PyStr := pyStr "USDT"

/-! ### Retry protocol `_retry_with_timeout` (`data_source.py` 80–107) -/

/-- Failures observed by the retry loop: a timeout (`TimeoutError` and friends,
line 92) or any other exception carrying a message (line 97). -/
inductive Exc where
  | timeout (msg : PyStr)
  | failure (msg : PyStr)
deriving DecidableEq

/-- Whether `needle` occurs as a contiguous substring of `hay` (Python `in`). -/
def hasSub : PyStr → PyStr → Bool
  | [], needle => decide (([] : PyStr).take needle.length = needle)
  | x :: t, needle => decide ((x :: t).take needle.length = needle) || hasSub t needle

/-- Whether the failure is one of the timeout exception classes. -/
def isTimeoutExc : Exc → Bool
  | .timeout _ => true
  | .failure _ => false

/-- Message attached to a failure (`str(e)`). -/
def excMsg : Exc → PyStr
  | .timeout m => m
  | .failure m => m

/-- The transient-failure heuristic of line 99: the lowercased message contains
`network` or `connection`. -/
def netMatch (e : Exc) : Bool :=
  hasSub ((excMsg e).map lowC) (pyStr "network")
    || hasSub ((excMsg e).map lowC) (pyStr "connection")

/-- A failure the loop retries: any timeout, or any other failure whose message
passes the substring heuristic. -/
def retryableExc (e : Exc) : Bool := isTimeoutExc e || netMatch e

/-- Observable actions of the retry loop: invoking the operation on a given
attempt index, or sleeping for a number of seconds. -/
inductive REvent where
  | call (attempt : ℕ)
  | sleep (seconds : ℕ)
deriving DecidableEq

/-- Backoff before attempt `attempt`: `min(2 ** attempt, 5)` seconds (line 87). -/
def backoff (attempt : ℕ) : ℕ := min (2 ^ attempt) 5

/-- One pass of the `for attempt in range(max_retries + 1)` loop, with `left`
remaining attempts after the current one.  Sleeping happens before every
attempt except attempt 0; a retryable failure on the last attempt breaks out
and re-raises it; a non-retryable failure is raised at once. -/
def retryGo {α : Type} (op : ℕ → Except Exc α) : ℕ → ℕ → List REvent × Except Exc α
  | attempt, left =>
    let pre : List REvent := if attempt = 0 then [] else [REvent.sleep (backoff attempt)]
    match op attempt with
    | .ok v => (pre ++ [REvent.call attempt], .ok v)
    | .error e =>
      if retryableExc e then
        match left with
        | 0 => (pre ++ [REvent.call attempt], .error e)
        | left' + 1 =>
          let rest := retryGo op (attempt + 1) left'
          (pre ++ [REvent.call attempt] ++ rest.1, rest.2)
      else (pre ++ [REvent.call attempt], .error e)

/-- The whole of `_retry_with_timeout`: run the loop from attempt 0 with
`maxRetries` further attempts available, returning the event trace and the
result (`.error` meaning the exception raised to the caller). -/
def retryRun {α : Type} (op : ℕ → Except Exc α) (maxRetries : ℕ) :
    List REvent × Except Exc α :=
  retryGo op 0 maxRetries

/-- Number of operation invocations in a trace. -/
def numCalls (evs : List REvent) : ℕ :=
  (evs.filter fun e => match e with | .call _ => true | _ => false).length

/-- Sleep durations in a trace, in order. -/
def sleepsOf (evs : List REvent) : List ℕ :=
  evs.filterMap fun e => match e with | .sleep s => some s | _ => none

/-- The trace the loop produces when every attempt fails with a retryable
failure: attempt 0 without a preceding sleep, then sleep/attempt pairs. -/
def expectedEvents : ℕ → ℕ → List REvent
  | attempt, 0 =>
      (if attempt = 0 then [] else [REvent.sleep (backoff attempt)]) ++ [REvent.call attempt]
  | attempt, left + 1 =>
      ((if attempt = 0 then [] else [REvent.sleep (backoff attempt)]) ++ [REvent.call attempt])
        ++ expectedEvents (attempt + 1) left

/-! ### Crypto klines `get_crypto_klines` (`data_source.py` 906–984) -/

/-- One raw Binance kline row, fields 0–7 of the JSON array (the timestamp is an
integer number of milliseconds, carried here as a rational). -/
structure Kline where
  ts : ℚ
  opn : ℚ
  high : ℚ
  low : ℚ
  close : ℚ
  vol : ℚ
  amount : ℚ
deriving DecidableEq

/-- A crypto record: the `kline_data` dict (lines 949–968) as an association
list in insertion order.  The two string-valued fields `trade_date` and
`trade_time` (both derived from `timestamp` by calendar formatting) are not
modelled; every numeric field is.  No `pre_close` key is ever inserted. -/
abbrev KRec := List (String × ℚ)

/-- Build one `kline_data` dict from a raw kline and the close of the previously
assembled record (`None` for the first record): `change` and `pct_chg` are
appended after the base fields, with `pct_chg = change/prev_close*100` when the
previous close is nonzero and `0` otherwise (lines 961–968). -/
def mkKlineRec (k : Kline) (prev : Option ℚ) : KRec :=
  [("open", k.opn), ("high", k.high), ("low", k.low), ("close", k.close),
   ("volume", k.vol), ("amount", k.amount), ("timestamp", k.ts)]
  ++ [("change", match prev with | none => 0 | some p => k.close - p),
      ("pct_chg", match prev with
        | none => 0
        | some p => if p ≠ 0 then (k.close - p) / p * 100 else 0)]

/-- The record-assembly loop of `get_crypto_klines`, carrying the close of the
last appended record. -/
def kgo : List Kline → Option ℚ → List KRec
  | [], _ => []
  | k :: ks, prev => mkKlineRec k prev :: kgo ks (some k.close)

/-- Records assembled in fetch order (before the final `result.reverse()`). -/
def assembleKlines (ks : List Kline) : List KRec := kgo ks none

/-- The semantic interval table of lines 915–919. -/
def intervalMap : List (String × String) :=
  [("1min", "1m"), ("5min", "5m"), ("15min", "15m"), ("30min", "30m"),
   ("60min", "1h"), ("hourly", "1h"), ("4hour", "4h"),
   ("daily", "1d"), ("1day", "1d"), ("weekly", "1w"), ("monthly", "1M")]

/-- The native Binance interval tokens of line 922. -/
def nativeIntervals : List String :=
  ["1m", "3m", "5m", "15m", "30m", "1h", "2h", "4h", "6h", "8h", "12h", "1d", "3d", "1w", "1M"]

/-- Interval resolution of lines 921–924: look the name up in the semantic
table (defaulting to the name itself), then fall back to `1d` when the result
is not a native token. -/
def resolveInterval (interval : String) : String :=
  let b := (intervalMap.lookup interval).getD interval
  if b ∈ nativeIntervals then b else "1d"

/-- Limit clamping of line 927: `max(5, min(500, limit))`. -/
def clampLimit (limit : ℕ) : ℕ := max 5 (min 500 limit)

/-- The data path of `get_crypto_klines` after symbol normalisation: resolve
the interval, clamp the limit, fetch raw klines (the provider call is the
abstract `fetch`), assemble records in fetch order, then reverse so the caller
receives newest-first (line 977). -/
def getCryptoKlines (interval : String) (limit : ℕ)
    (fetch : String → ℕ → List Kline) : List KRec :=
  (assembleKlines (fetch (resolveInterval interval) (clampLimit limit))).reverse

/-- Timestamp of an assembled crypto record. -/
def tsOf (r : KRec) : ℚ := (r.lookup "timestamp").getD 0

/-! ### Equity daily history `get_daily` (`data_source.py` 176–391) -/

/-- One raw provider row of the daily table, keyed by its date column (a
`YYYYMMDD` number). -/
structure DRow where
  date : ℕ
  opn : ℚ
  high : ℚ
  low : ℚ
  close : ℚ
  vol : ℚ
deriving DecidableEq

/-- One assembled daily record (the `item` dict of lines 359–379; the constant
`ts_code` string field is not modelled). -/
structure DItem where
  trade_date : ℕ
  opn : ℚ
  high : ℚ
  low : ℚ
  close : ℚ
  vol : ℚ
  pre_close : ℚ
  change : ℚ
  pct_chg : ℚ
deriving DecidableEq

/-- Build one daily record from a row and the close of the previously appended
record: the first record takes `pre_close` equal to its own close with zero
`change` and `pct_chg`; later records take `pre_close` from the previous
record's close, `change = close - pre_close` and
`pct_chg = change/pre_close*100` when `pre_close` is nonzero, else `0`
(lines 359–379). -/
def mkDItem (r : DRow) (prev : Option ℚ) : DItem :=
  { trade_date := r.date, opn := r.opn, high := r.high, low := r.low,
    close := r.close, vol := r.vol,
    pre_close := match prev with | none => r.close | some p => p,
    change := match prev with | none => 0 | some p => r.close - p,
    pct_chg := match prev with
      | none => 0
      | some p => if p ≠ 0 then (r.close - p) / p * 100 else 0 }

/-- The record-assembly loop of `get_daily`, carrying the close of the last
appended record. -/
def dgo : List DRow → Option ℚ → List DItem
  | [], _ => []
  | r :: rs, prev => mkDItem r prev :: dgo rs (some r.close)

/-- Records assembled from the capped, date-ascending rows. -/
def assembleDaily (rows : List DRow) : List DItem := dgo rows none

/-- Date-descending comparison used by the first `sort_values` (line 322). -/
def dateDesc (a b : DRow) : Prop := b.date ≤ a.date

/-- Date-ascending comparison used by the second `sort_values` (line 324). -/
def dateAsc (a b : DRow) : Prop := a.date ≤ b.date

instance : DecidableRel dateDesc := fun a b => by unfold dateDesc; infer_instance
instance : DecidableRel dateAsc := fun a b => by unfold dateAsc; infer_instance
instance : IsTotal DRow dateDesc := ⟨fun a b => le_total b.date a.date⟩
instance : IsTrans DRow dateDesc := ⟨fun _ _ _ h h' => le_trans h' h⟩
instance : IsTotal DRow dateAsc := ⟨fun a b => le_total a.date b.date⟩
instance : IsTrans DRow dateAsc := ⟨fun _ _ _ h h' => le_trans h h'⟩

/-- Row capping of lines 322–324: sort date-descending, keep the first
`maxRecords` rows, re-sort date-ascending. -/
def selectRecent (maxRecords : ℕ) (rows : List DRow) : List DRow :=
  List.insertionSort dateAsc (List.take maxRecords (List.insertionSort dateDesc rows))

/-- The data path of `get_daily` after provider fetch and column resolution:
cap to the most recent `maxRecords` rows oldest-first, then assemble records
with the derived `pre_close`/`change`/`pct_chg` fields. -/
def getDaily (maxRecords : ℕ) (rows : List DRow) : List DItem :=
  assembleDaily (selectRecent maxRecords rows)

/-! ### KDJ raw stochastic value `calculate_kdj` (`utils/chart_utils.py` 78–91) -/

/-- One OHLC bar as consumed by the indicator functions. -/
structure Bar where
  high : ℚ
  low : ℚ
  close : ℚ
deriving DecidableEq

/-- A pandas float: a finite rational, `NaN`, or a signed infinity. -/
inductive PF where
  | num (q : ℚ)
  | nan
  | pinf
  | ninf
deriving DecidableEq

/-- IEEE-style division of finite values: `0/0` is `NaN` and `x/0` is a signed
infinity, as numpy produces inside the `rsv` expression. -/
def pfDivQ (a b : ℚ) : PF :=
  if b = 0 then (if a = 0 then .nan else if 0 < a then .pinf else .ninf)
  else .num (a / b)

/-- Multiplication of a pandas float by the positive constant 100. -/
def pfTimes100 : PF → PF
  | .num q => .num (q * 100)
  | .nan => .nan
  | .pinf => .pinf
  | .ninf => .ninf

/-- Pandas `fillna(50)`: replace `NaN` (and only `NaN`) by 50 (line 84). -/
def fill50 (v : PF) : PF := if v = .nan then .num 50 else v

/-- The rolling window ending at index `i` of width at most `n`
(`rolling(window=n, min_periods=1)`). -/
def win (n i : ℕ) (xs : List ℚ) : List ℚ := (xs.take (i + 1)).drop (i + 1 - n)

/-- Minimum of a list of rationals (0 on the empty list, which no in-range
window produces). -/
def qMin : List ℚ → ℚ
  | [] => 0
  | x :: xs => xs.foldl min x

/-- Maximum of a list of rationals (0 on the empty list, which no in-range
window produces). -/
def qMax : List ℚ → ℚ
  | [] => 0
  | x :: xs => xs.foldl max x

/-- The `low_list` rolling minimum at index `i` (line 81). -/
def rollLow (n : ℕ) (bars : List Bar) (i : ℕ) : ℚ := qMin (win n i (bars.map Bar.low))

/-- The `high_list` rolling maximum at index `i` (line 82). -/
def rollHigh (n : ℕ) (bars : List Bar) (i : ℕ) : ℚ := qMax (win n i (bars.map Bar.high))

/-- Close at index `i` (0 out of range; statements only use in-range indices). -/
def closeAt (bars : List Bar) (i : ℕ) : ℚ := (bars[i]?.map Bar.close).getD 0

/-- The raw stochastic value before `fillna`:
`(close - low_list) / (high_list - low_list) * 100` (line 83). -/
def rsvRaw (n : ℕ) (bars : List Bar) (i : ℕ) : PF :=
  pfTimes100 (pfDivQ (closeAt bars i - rollLow n bars i) (rollHigh n bars i - rollLow n bars i))

/-- The `rsv` series after `fillna(50)` (line 84), one value per input bar. -/
def rsvList (n : ℕ) (bars : List Bar) : List PF :=
  (List.range bars.length).map fun i => fill50 (rsvRaw n bars i)

/-! ### Shared auxiliary lemmas -/

theorem kgo_length (ks : List Kline) : ∀ p, (kgo ks p).length = ks.length := by
  induction ks with
  | nil => intro p; rfl
  | cons k ks ih => intro p; simp [kgo, ih]

theorem dgo_length (rows : List DRow) : ∀ p, (dgo rows p).length = rows.length := by
  induction rows with
  | nil => intro p; rfl
  | cons r rs ih => intro p; simp [dgo, ih]

theorem numCalls_append (l₁ l₂ : List REvent) :
    numCalls (l₁ ++ l₂) = numCalls l₁ + numCalls l₂ := by
  simp [numCalls, List.filter_append]

theorem sleepsOf_append (l₁ l₂ : List REvent) :
    sleepsOf (l₁ ++ l₂) = sleepsOf l₁ ++ sleepsOf l₂ := by
  simp [sleepsOf, List.filterMap_append]

theorem numCalls_pre (a s : ℕ) :
    numCalls (if a = 0 then [] else [REvent.sleep s]) = 0 := by
  split <;> rfl

theorem sleepsOf_pre (a s : ℕ) :
    sleepsOf (if a = 0 then [] else [REvent.sleep s]) = if a = 0 then [] else [s] := by
  split <;> rfl

/-! ### C10: unsupported kline intervals silently fall back to `1d` -/

/-- C10: for every interval string that is neither a key of the semantic
interval map nor a native Binance interval token, `get_crypto_klines` does
not fail or return empty on that account: it substitutes `1d` and proceeds,
so its result is exactly the result it would produce for interval `1d`,
and it is nonempty whenever the provider returns rows. -/
theorem c10_unknown_interval_defaults_to_1d (interval : String) (limit : ℕ)
    (fetch : String → ℕ → List Kline)
    (hkey : intervalMap.lookup interval = none)
    (hnat : interval ∉ nativeIntervals) :
    getCryptoKlines interval limit fetch = getCryptoKlines "1d" limit fetch ∧
    (fetch "1d" (clampLimit limit) ≠ [] → getCryptoKlines interval limit fetch ≠ []) := by
  have hres : resolveInterval interval = "1d" := by
    unfold resolveInterval
    rw [hkey]
    simp only [Option.getD_none]
    exact if_neg hnat
  have hres1d : resolveInterval "1d" = "1d" := by decide
  constructor
  · unfold getCryptoKlines
    rw [hres, hres1d]
  · intro hne
    unfold getCryptoKlines
    rw [hres]
    simp only [ne_eq, List.reverse_eq_nil_iff]
    intro hcon
    have hlen := kgo_length (fetch "1d" (clampLimit limit)) none
    rw [show assembleKlines (fetch "1d" (clampLimit limit))
          = kgo (fetch "1d" (clampLimit limit)) none from rfl] at hcon
    rw [hcon] at hlen
    exact hne (List.eq_nil_of_length_eq_zero hlen.symm)

/-- Provider stub used by the C10 witness: one kline row regardless of query. -/
def c10fetch : String → ℕ → List Kline := fun _ _ => [⟨1700000000000, 1, 2, 1, 2, 10, 20⟩]

/-- Witness for C10 at the concrete unsupported interval `45min`. -/
theorem c10_witness :
    intervalMap.lookup "45min" = none ∧ "45min" ∉ nativeIntervals ∧
    getCryptoKlines "45min" 100 c10fetch = getCryptoKlines "1d" 100 c10fetch ∧
    getCryptoKlines "45min" 100 c10fetch ≠ [] := by
  have h := c10_unknown_interval_defaults_to_1d "45min" 100 c10fetch (by decide) (by decide)
  exact ⟨by decide, by decide, h.1, h.2 (by decide)⟩

/-! ### C2: retry loop under persistent timeouts -/

theorem retryGo_timeout {α : Type} (op : ℕ → Except Exc α)
    (h : ∀ k, ∃ s, op k = .error (.timeout s)) :
    ∀ left attempt, retryGo op attempt left = (expectedEvents attempt left, op (attempt + left)) := by
  intro left
  induction left with
  | zero =>
    intro attempt
    obtain ⟨s, hs⟩ := h attempt
    simp [retryGo, expectedEvents, hs, retryableExc, isTimeoutExc]
  | succ left ih =>
    intro attempt
    obtain ⟨s, hs⟩ := h attempt
    have harith : attempt + (left + 1) = (attempt + 1) + left := by omega
    simp [retryGo, expectedEvents, hs, retryableExc, isTimeoutExc, ih (attempt + 1), harith]

theorem numCalls_expectedEvents : ∀ left attempt, numCalls (expectedEvents attempt left) = left + 1 := by
  intro left
  induction left with
  | zero =>
    intro attempt
    rw [expectedEvents, numCalls_append]
    have h1 := numCalls_pre attempt (backoff attempt)
    have h2 : numCalls [REvent.call attempt] = 1 := rfl
    omega
  | succ left ih =>
    intro attempt
    rw [expectedEvents, numCalls_append, numCalls_append]
    have h1 := numCalls_pre attempt (backoff attempt)
    have h2 : numCalls [REvent.call attempt] = 1 := rfl
    have h3 := ih (attempt + 1)
    omega

theorem sleepsOf_expectedEvents :
    ∀ left attempt, sleepsOf (expectedEvents (attempt + 1) left)
      = (List.range' (attempt + 1) (left + 1)).map backoff := by
  intro left
  induction left with
  | zero =>
    intro attempt
    rw [expectedEvents, sleepsOf_append, sleepsOf_pre]
    rw [if_neg (Nat.succ_ne_zero attempt)]
    have h2 : sleepsOf [REvent.call (attempt + 1)] = [] := rfl
    rw [h2, List.range'_succ]
    simp [List.range']
  | succ left ih =>
    intro attempt
    have h2 : sleepsOf [REvent.call (attempt + 1)] = [] := rfl
    have h3 := ih (attempt + 1)
    rw [expectedEvents, sleepsOf_append, sleepsOf_append, sleepsOf_pre,
      if_neg (Nat.succ_ne_zero attempt), h2, h3]
    conv_rhs => rw [List.range'_succ]
    simp

/-- C2: `_retry_with_timeout` applied to an operation that fails with a timeout
on every attempt produces exactly the trace of attempt 0, then, for each retry
`attempt = 1 … max_retries`, a sleep of `min(2^attempt, 5)` seconds followed by
the next invocation; the operation is invoked exactly `max_retries + 1` times
and the failure of the last attempt is re-raised. -/
theorem c2_retry_exhausts_timeouts {α : Type} (op : ℕ → Except Exc α) (m : ℕ)
    (h : ∀ k, ∃ s, op k = .error (.timeout s)) :
    (retryRun op m).1 = expectedEvents 0 m ∧
    numCalls (retryRun op m).1 = m + 1 ∧
    sleepsOf (retryRun op m).1 = (List.range' 1 m).map backoff ∧
    (retryRun op m).2 = op m := by
  have hrun := retryGo_timeout op h m 0
  rw [retryRun, hrun]
  refine ⟨rfl, numCalls_expectedEvents m 0, ?_, by simp⟩
  cases m with
  | zero => rfl
  | succ m =>
    rw [expectedEvents, sleepsOf_append, sleepsOf_append, sleepsOf_pre]
    have h2 : sleepsOf [REvent.call 0] = [] := rfl
    rw [h2, if_pos rfl, sleepsOf_expectedEvents m 0]
    simp

/-- Operation used by the C2 witness: a timeout on every attempt. -/
def c2op : ℕ → Except Exc Unit := fun _ => .error (.timeout (pyStr "timed out"))

/-- Witness for C2 at `max_retries = 2`: exactly 3 invocations, sleeps of 2 and
4 seconds (so at least 3 seconds in total), and the timeout re-raised. -/
theorem c2_witness :
    (retryRun c2op 2).1
      = [REvent.call 0, REvent.sleep 2, REvent.call 1, REvent.sleep 4, REvent.call 2] ∧
    numCalls (retryRun c2op 2).1 = 3 ∧
    3 ≤ (sleepsOf (retryRun c2op 2).1).sum ∧
    (retryRun c2op 2).2 = .error (.timeout (pyStr "timed out")) := by
  have h := c2_retry_exhausts_timeouts c2op 2 (fun k => ⟨pyStr "timed out", rfl⟩)
  refine ⟨h.1.trans (by decide), h.2.1, ?_, h.2.2.2⟩
  rw [h.2.2.1]
  decide

/-! ### C3: retry classification -/

theorem one_le_numCalls_retryGo {α : Type} (op : ℕ → Except Exc α) (attempt left : ℕ) :
    1 ≤ numCalls (retryGo op attempt left).1 := by
  rw [retryGo]
  have h1 := numCalls_pre attempt (backoff attempt)
  have h2 : numCalls [REvent.call attempt] = 1 := rfl
  cases hop : op attempt with
  | ok v => simp only [numCalls_append]; omega
  | error e =>
    by_cases hr : retryableExc e
    · cases left with
      | zero => simp only [hr, if_true, numCalls_append]; omega
      | succ left' => simp only [hr, if_true, numCalls_append]; omega
    · simp only [hr, if_false, Bool.false_eq_true, numCalls_append]; omega

/-- Events of the `k` attempts `attempt, …, attempt + k - 1`, each a backoff
sleep (except attempt 0) followed by the invocation. -/
def eventsFrom : ℕ → ℕ → List REvent
  | _, 0 => []
  | attempt, k + 1 =>
      ((if attempt = 0 then [] else [REvent.sleep (backoff attempt)]) ++ [REvent.call attempt])
        ++ eventsFrom (attempt + 1) k

theorem numCalls_eventsFrom : ∀ k attempt, numCalls (eventsFrom attempt k) = k := by
  intro k
  induction k with
  | zero => intro attempt; rfl
  | succ k ih =>
    intro attempt
    have h1 := numCalls_pre attempt (backoff attempt)
    have h2 : numCalls [REvent.call attempt] = 1 := rfl
    have h3 := ih (attempt + 1)
    rw [eventsFrom, numCalls_append, numCalls_append]
    omega

theorem expectedEvents_decomp : ∀ k attempt, expectedEvents attempt k
    = eventsFrom attempt k
      ++ ((if attempt + k = 0 then [] else [REvent.sleep (backoff (attempt + k))])
            ++ [REvent.call (attempt + k)]) := by
  intro k
  induction k with
  | zero => intro attempt; simp [expectedEvents, eventsFrom]
  | succ k ih =>
    intro attempt
    rw [expectedEvents, eventsFrom, ih (attempt + 1)]
    have harith : attempt + 1 + k = attempt + (k + 1) := by omega
    rw [harith]
    simp only [List.append_assoc]

theorem retryGo_error_retryable {α : Type} (op : ℕ → Except Exc α) {e : Exc} (att left' : ℕ)
    (h : op att = .error e) (hre : retryableExc e = true) :
    retryGo op att (left' + 1)
      = ((if att = 0 then [] else [REvent.sleep (backoff att)])
          ++ [REvent.call att] ++ (retryGo op (att + 1) left').1,
         (retryGo op (att + 1) left').2) := by
  rw [retryGo, h]
  simp [hre]

theorem retryGo_error_fatal {α : Type} (op : ℕ → Except Exc α) {e : Exc} (att left : ℕ)
    (h : op att = .error e) (hre : retryableExc e = false) :
    retryGo op att left
      = ((if att = 0 then [] else [REvent.sleep (backoff att)]) ++ [REvent.call att],
         .error e) := by
  rw [retryGo, h]
  simp [hre]

theorem retryGo_skip {α : Type} (op : ℕ → Except Exc α) :
    ∀ (k a left : ℕ), k ≤ left →
    (∀ j, a ≤ j → j < a + k → ∃ ej, op j = .error ej ∧ retryableExc ej = true) →
    retryGo op a left
      = (eventsFrom a k ++ (retryGo op (a + k) (left - k)).1,
         (retryGo op (a + k) (left - k)).2) := by
  intro k
  induction k with
  | zero =>
    intro a left _ _
    simp [eventsFrom]
  | succ k ih =>
    intro a left hk hall
    obtain ⟨e0, he0, hre0⟩ := hall a (le_refl a) (by omega)
    obtain ⟨left', rfl⟩ : ∃ left', left = left' + 1 := ⟨left - 1, by omega⟩
    rw [retryGo_error_retryable op a left' he0 hre0]
    have ih' := ih (a + 1) left' (by omega) (fun j hj1 hj2 => hall j (by omega) (by omega))
    rw [ih']
    have h1 : a + 1 + k = a + (k + 1) := by omega
    have h2 : left' - k = left' + 1 - (k + 1) := by omega
    rw [eventsFrom, h1, h2]
    dsimp only
    simp only [List.append_assoc]

/-- C3: if the loop reaches attempt `k` (every earlier attempt raised a
retryable failure) and attempt `k` raises failure `e`, then — whenever budget
remains — the operation is invoked again exactly when `e` is a timeout or its
lowercased message contains `network` or `connection`; and whenever `e` is
neither, it propagates immediately to the caller: the trace is exactly the
`k + 1` attempts made so far, with no further invocation, and `e` is the
raised result. -/
theorem c3_retry_iff_transient {α : Type} (op : ℕ → Except Exc α) (m k : ℕ) (e : Exc)
    (hk : k ≤ m)
    (hprev : ∀ j, j < k → ∃ ej, op j = .error ej ∧ retryableExc ej = true)
    (hke : op k = .error e) :
    (k < m → (k + 2 ≤ numCalls (retryRun op m).1 ↔ (isTimeoutExc e || netMatch e) = true)) ∧
    ((isTimeoutExc e || netMatch e) = false →
      (retryRun op m).1 = expectedEvents 0 k ∧
      numCalls (retryRun op m).1 = k + 1 ∧
      (retryRun op m).2 = .error e) := by
  have hretry : retryableExc e = (isTimeoutExc e || netMatch e) := rfl
  have hskip := retryGo_skip op k 0 m hk (fun j hj0 hjk => hprev j (by omega))
  rw [Nat.zero_add] at hskip
  rw [retryRun, hskip]
  cases hr : (isTimeoutExc e || netMatch e) with
  | false =>
    have hre : retryableExc e = false := hretry.trans hr
    rw [retryGo_error_fatal op k (m - k) hke hre]
    have hcalls : numCalls (eventsFrom 0 k
        ++ ((if k = 0 then [] else [REvent.sleep (backoff k)]) ++ [REvent.call k])) = k + 1 := by
      rw [numCalls_append, numCalls_append, numCalls_eventsFrom, numCalls_pre]
      rfl
    constructor
    · intro _
      constructor
      · intro hge
        rw [hcalls] at hge
        omega
      · intro hcon
        exact absurd hcon (by decide)
    · intro _
      refine ⟨?_, hcalls, rfl⟩
      rw [expectedEvents_decomp k 0, Nat.zero_add]
  | true =>
    have hre : retryableExc e = true := hretry.trans hr
    constructor
    · intro hkm
      obtain ⟨left', hleft⟩ : ∃ left', m - k = left' + 1 := ⟨m - k - 1, by omega⟩
      rw [hleft, retryGo_error_retryable op k left' hke hre]
      constructor
      · intro _
        rfl
      · intro _
        have h1 := one_le_numCalls_retryGo op (k + 1) left'
        have h2 := numCalls_eventsFrom k 0
        have h3 := numCalls_pre k (backoff k)
        have h4 : numCalls [REvent.call k] = 1 := rfl
        rw [numCalls_append, numCalls_append, numCalls_append]
        omega
    · intro hcon
      exact absurd hcon (by decide)

/-- Operation used by the C3 witness: a permanent failure on every attempt. -/
def c3op : ℕ → Except Exc Unit := fun _ => .error (.failure (pyStr "invalid stock code"))

/-- Operation used by the C3 witness: a transient network failure. -/
def c3opNet : ℕ → Except Exc Unit := fun _ => .error (.failure (pyStr "Network unreachable"))

/-- Operation used by the C3 witness: a timeout on attempt 0, then a permanent
failure on every later attempt. -/
def c3opMixed : ℕ → Except Exc Unit := fun n =>
  if n = 0 then .error (.timeout (pyStr "read timeout"))
  else .error (.failure (pyStr "bad symbol"))

/-- Witness for C3: the permanent failure `invalid stock code` on the first
attempt is raised after a single invocation; a timeout on attempt 0 followed
by the permanent failure `bad symbol` on attempt 1 stops after the second
invocation (no third call, the permanent failure raised); the transient
failure `Network unreachable` earns a retry. -/
theorem c3_witness :
    (retryRun c3op 2).1 = [REvent.call 0] ∧
    numCalls (retryRun c3op 2).1 = 1 ∧
    (retryRun c3op 2).2 = .error (.failure (pyStr "invalid stock code")) ∧
    (retryRun c3opMixed 2).1 = [REvent.call 0, REvent.sleep 2, REvent.call 1] ∧
    numCalls (retryRun c3opMixed 2).1 = 2 ∧
    (retryRun c3opMixed 2).2 = .error (.failure (pyStr "bad symbol")) ∧
    2 ≤ numCalls (retryRun c3opNet 2).1 := by
  have h := c3_retry_iff_transient c3op 2 0 (.failure (pyStr "invalid stock code"))
    (by omega) (fun j hj => absurd hj (by omega)) rfl
  have hperm := h.2 (by decide)
  have hm := c3_retry_iff_transient c3opMixed 2 1 (.failure (pyStr "bad symbol"))
    (by omega)
    (fun j hj => by
      obtain rfl : j = 0 := by omega
      exact ⟨.timeout (pyStr "read timeout"), rfl, by decide⟩)
    rfl
  have hmixed := hm.2 (by decide)
  have hn := c3_retry_iff_transient c3opNet 2 0 (.failure (pyStr "Network unreachable"))
    (by omega) (fun j hj => absurd hj (by omega)) rfl
  refine ⟨hperm.1.trans (by decide), hperm.2.1, hperm.2.2,
    hmixed.1.trans (by decide), hmixed.2.1, hmixed.2.2, ?_⟩
  exact ((hn.1 (by omega)).mpr (by decide))

/-! ### C1: derived-field invariants of record assembly -/

/-- Close of the record preceding index `i` during assembly started with
carry `p`: the carry itself for `i = 0`, otherwise the close of row `i - 1`. -/
def prevCloseD (rows : List DRow) (p : Option ℚ) : ℕ → Option ℚ
  | 0 => p
  | i + 1 => (rows[i]?).map DRow.close

/-- Close of the kline preceding index `i` during assembly started with
carry `p`. -/
def prevCloseK (ks : List Kline) (p : Option ℚ) : ℕ → Option ℚ
  | 0 => p
  | i + 1 => (ks[i]?).map Kline.close

theorem dgo_getElem? (rows : List DRow) : ∀ (p : Option ℚ) (i : ℕ),
    (dgo rows p)[i]? = (rows[i]?).map fun r => mkDItem r (prevCloseD rows p i) := by
  induction rows with
  | nil => intro p i; cases i <;> simp [dgo]
  | cons r rs ih =>
    intro p i
    cases i with
    | zero => simp [dgo, prevCloseD]
    | succ i =>
      cases i with
      | zero => simp [dgo, ih, prevCloseD]
      | succ j => simp [dgo, ih, prevCloseD]

theorem kgo_getElem? (ks : List Kline) : ∀ (p : Option ℚ) (i : ℕ),
    (kgo ks p)[i]? = (ks[i]?).map fun k => mkKlineRec k (prevCloseK ks p i) := by
  induction ks with
  | nil => intro p i; cases i <;> simp [kgo]
  | cons k ks ih =>
    intro p i
    cases i with
    | zero => simp [kgo, prevCloseK]
    | succ i =>
      cases i with
      | zero => simp [kgo, ih, prevCloseK]
      | succ j => simp [kgo, ih, prevCloseK]

theorem mkKlineRec_lookup_close (k : Kline) (p : Option ℚ) :
    (mkKlineRec k p).lookup "close" = some k.close := rfl

theorem mkKlineRec_lookup_pre_close (k : Kline) (p : Option ℚ) :
    (mkKlineRec k p).lookup "pre_close" = none := rfl

theorem mkKlineRec_lookup_change (k : Kline) (p : Option ℚ) :
    (mkKlineRec k p).lookup "change"
      = some (match p with | none => 0 | some q => k.close - q) := rfl

theorem mkKlineRec_lookup_pct_chg (k : Kline) (p : Option ℚ) :
    (mkKlineRec k p).lookup "pct_chg"
      = some (match p with
          | none => 0
          | some q => if q ≠ 0 then (k.close - q) / q * 100 else 0) := rfl

theorem kgo_no_pre_close : ∀ (ks : List Kline) (p : Option ℚ),
    ∀ r ∈ kgo ks p, r.lookup "pre_close" = none := by
  intro ks
  induction ks with
  | nil => intro p r hr; cases hr
  | cons k ks ih =>
    intro p r hr
    rcases List.mem_cons.mp hr with h | h
    · rw [h]; exact mkKlineRec_lookup_pre_close k p
    · exact ih (some k.close) r h

/-- C1 (amended): in both history paths the derived change fields are computed
against the close of the immediately preceding record of the same assembled
series.  Equity daily records carry `pre_close` — equal to the record's own
close for the first record (with `change = pct_chg = 0`) and to the previous
record's close afterwards, with `change = close - pre_close` and
`pct_chg = change/pre_close*100` when `pre_close` is nonzero, else `0`.
Crypto kline records carry no `pre_close` key at all; their `change` and
`pct_chg` follow the same recurrence against the previous record's close. -/
theorem c1_change_pct_invariants (rows : List DRow) (ks : List Kline) :
    ((assembleDaily rows).length = rows.length ∧
     (∀ a, (assembleDaily rows)[0]? = some a →
        a.pre_close = a.close ∧ a.change = 0 ∧ a.pct_chg = 0) ∧
     (∀ i a b, (assembleDaily rows)[i]? = some a → (assembleDaily rows)[i + 1]? = some b →
        b.pre_close = a.close ∧ b.change = b.close - a.close ∧
        b.pct_chg = if a.close ≠ 0 then (b.close - a.close) / a.close * 100 else 0))
    ∧
    ((assembleKlines ks).length = ks.length ∧
     (∀ r ∈ assembleKlines ks, r.lookup "pre_close" = none) ∧
     (∀ r, (assembleKlines ks)[0]? = some r →
        r.lookup "change" = some 0 ∧ r.lookup "pct_chg" = some 0) ∧
     (∀ i a b ca cb, (assembleKlines ks)[i]? = some a → (assembleKlines ks)[i + 1]? = some b →
        a.lookup "close" = some ca → b.lookup "close" = some cb →
        b.lookup "change" = some (cb - ca) ∧
        b.lookup "pct_chg" = some (if ca ≠ 0 then (cb - ca) / ca * 100 else 0))) := by
  refine ⟨⟨dgo_length rows none, ?_, ?_⟩, kgo_length ks none, kgo_no_pre_close ks none, ?_, ?_⟩
  · intro a ha
    rw [show assembleDaily rows = dgo rows none from rfl, dgo_getElem?] at ha
    cases h0 : rows[0]? with
    | none => rw [h0] at ha; cases ha
    | some r =>
      rw [h0] at ha
      simp only [Option.map_some', Option.some.injEq] at ha
      subst ha
      exact ⟨rfl, rfl, rfl⟩
  · intro i a b ha hb
    rw [show assembleDaily rows = dgo rows none from rfl, dgo_getElem?] at ha hb
    cases hri : rows[i]? with
    | none => rw [hri] at ha; cases ha
    | some ra =>
      cases hri1 : rows[i + 1]? with
      | none => rw [hri1] at hb; cases hb
      | some rb =>
        rw [hri] at ha
        rw [hri1] at hb
        simp only [Option.map_some', Option.some.injEq] at ha hb
        subst ha; subst hb
        have hprev : prevCloseD rows none (i + 1) = some ra.close := by
          show (rows[i]?).map DRow.close = some ra.close
          rw [hri]; rfl
        rw [hprev]
        exact ⟨rfl, rfl, rfl⟩
  · intro r hr
    rw [show assembleKlines ks = kgo ks none from rfl, kgo_getElem?] at hr
    cases h0 : ks[0]? with
    | none => rw [h0] at hr; cases hr
    | some k =>
      rw [h0] at hr
      simp only [Option.map_some', Option.some.injEq] at hr
      subst hr
      constructor
      · rw [mkKlineRec_lookup_change]
        exact rfl
      · rw [mkKlineRec_lookup_pct_chg]
        exact rfl
  · intro i a b ca cb ha hb hca hcb
    rw [show assembleKlines ks = kgo ks none from rfl, kgo_getElem?] at ha hb
    cases hki : ks[i]? with
    | none => rw [hki] at ha; cases ha
    | some ka =>
      cases hki1 : ks[i + 1]? with
      | none => rw [hki1] at hb; cases hb
      | some kb =>
        rw [hki] at ha
        rw [hki1] at hb
        simp only [Option.map_some', Option.some.injEq] at ha hb
        subst ha; subst hb
        rw [mkKlineRec_lookup_close] at hca hcb
        cases hca; cases hcb
        have hprev : prevCloseK ks none (i + 1) = some ka.close := by
          show (ks[i]?).map Kline.close = some ka.close
          rw [hki]; rfl
        constructor
        · rw [mkKlineRec_lookup_change, hprev]
        · rw [mkKlineRec_lookup_pct_chg, hprev]

/-- Daily rows with closes 10, 12, 9, used by the C1 witness. -/
def rows10 : List DRow :=
  [⟨20240101, 0, 0, 0, 10, 0⟩, ⟨20240102, 0, 0, 0, 12, 0⟩, ⟨20240103, 0, 0, 0, 9, 0⟩]

/-- Kline rows with closes 10, 12, 9, used by the C1 witness and
counterexample. -/
def ks10 : List Kline :=
  [⟨1, 0, 0, 0, 10, 0, 0⟩, ⟨2, 0, 0, 0, 12, 0, 0⟩, ⟨3, 0, 0, 0, 9, 0, 0⟩]

/-- Witness for C1 on closes `[10, 12, 9]`: equity records carry
`(pre_close, change, pct_chg) = (10,0,0), (10,2,20), (12,-3,-25)`; crypto
records carry the same `change`/`pct_chg` values and no `pre_close` key. -/
theorem c1_witness :
    ((assembleDaily rows10).map fun it => (it.pre_close, it.change, it.pct_chg))
      = [(10, 0, 0), (10, 2, 20), (12, -3, -25)] ∧
    (∀ r ∈ assembleKlines ks10, r.lookup "pre_close" = none) ∧
    ((assembleKlines ks10).map fun r => (r.lookup "change", r.lookup "pct_chg"))
      = [(some 0, some 0), (some 2, some 20), (some (-3), some (-25))] := by
  refine ⟨?_, (c1_change_pct_invariants rows10 ks10).2.2.1, ?_⟩
  · simp only [rows10, assembleDaily, dgo, mkDItem, List.map_cons, List.map_nil]
    norm_num
  · simp only [ks10, assembleKlines, kgo, List.map_cons, List.map_nil,
      mkKlineRec_lookup_change, mkKlineRec_lookup_pct_chg]
    norm_num

/-- Counterexample for C1 as stated: the first crypto record of the series with
closes `[10, 12, 9]` has a `close` of 10 but no `pre_close` key at all, so its
`pre_close` does not equal its close. -/
theorem c1_counterexample :
    ((assembleKlines ks10)[0]?.bind fun r => r.lookup "close") = some 10 ∧
    ((assembleKlines ks10)[0]?.bind fun r => r.lookup "pre_close") = none ∧
    ((assembleKlines ks10)[0]?.bind fun r => r.lookup "pre_close") ≠ some 10 := by
  simp only [ks10, assembleKlines, kgo, List.getElem?_cons_zero, Option.some_bind,
    mkKlineRec_lookup_close, mkKlineRec_lookup_pre_close]
  simp

/-! ### C8: the KDJ raw stochastic value on zero-range windows -/

theorem foldl_min_le_init : ∀ (t : List ℚ) (acc : ℚ), t.foldl min acc ≤ acc := by
  intro t
  induction t with
  | nil => intro acc; exact le_refl acc
  | cons b t ih =>
    intro acc
    calc (b :: t).foldl min acc = t.foldl min (min acc b) := rfl
    _ ≤ min acc b := ih (min acc b)
    _ ≤ acc := min_le_left acc b

theorem foldl_le_max_init : ∀ (t : List ℚ) (acc : ℚ), acc ≤ t.foldl max acc := by
  intro t
  induction t with
  | nil => intro acc; exact le_refl acc
  | cons b t ih =>
    intro acc
    calc acc ≤ max acc b := le_max_left acc b
    _ ≤ t.foldl max (max acc b) := ih (max acc b)
    _ = (b :: t).foldl max acc := rfl

theorem qMin_le {l : List ℚ} {x : ℚ} (hx : x ∈ l) : qMin l ≤ x := by
  cases l with
  | nil => cases hx
  | cons a t =>
    rcases List.mem_cons.mp hx with h | h
    · subst h
      exact foldl_min_le_init t x
    · clear hx
      unfold qMin
      induction t generalizing a with
      | nil => cases h
      | cons b t ih =>
        rcases List.mem_cons.mp h with hb | hb
        · subst hb
          calc (x :: t).foldl min a = t.foldl min (min a x) := rfl
          _ ≤ min a x := foldl_min_le_init t (min a x)
          _ ≤ x := min_le_right a x
        · calc (b :: t).foldl min a = t.foldl min (min a b) := rfl
          _ ≤ x := ih (min a b) hb

theorem le_qMax {l : List ℚ} {x : ℚ} (hx : x ∈ l) : x ≤ qMax l := by
  cases l with
  | nil => cases hx
  | cons a t =>
    rcases List.mem_cons.mp hx with h | h
    · subst h
      exact foldl_le_max_init t x
    · clear hx
      unfold qMax
      induction t generalizing a with
      | nil => cases h
      | cons b t ih =>
        rcases List.mem_cons.mp h with hb | hb
        · subst hb
          calc x ≤ max a x := le_max_right a x
          _ ≤ t.foldl max (max a x) := foldl_le_max_init t (max a x)
          _ = (x :: t).foldl max a := rfl
        · calc x ≤ t.foldl max (max a b) := ih (max a b) hb
          _ = (b :: t).foldl max a := rfl

theorem mem_win_self {n i : ℕ} {xs : List ℚ} {x : ℚ} (hn : 1 ≤ n) (_hi : i < xs.length)
    (hx : xs[i]? = some x) : x ∈ win n i xs := by
  have h1 : (win n i xs)[i - (i + 1 - n)]? = some x := by
    unfold win
    rw [List.getElem?_drop]
    have harith : (i + 1 - n) + (i - (i + 1 - n)) = i := by omega
    rw [harith, List.getElem?_take, if_pos (by omega)]
    exact hx
  exact List.getElem?_mem h1

/-- C8 (amended): for bars satisfying `low ≤ close ≤ high`, the `rsv` series of
`calculate_kdj` is 50 at every position whose rolling `n`-bar high-low range is
zero: the numerator is then also zero, the division yields `NaN`, and
`fillna(50)` replaces it — no division failure escapes. -/
theorem c8_rsv_fifty_on_zero_range (n : ℕ) (bars : List Bar) (i : ℕ)
    (hn : 1 ≤ n)
    (hwf : ∀ b ∈ bars, b.low ≤ b.close ∧ b.close ≤ b.high)
    (hi : i < bars.length)
    (hr : rollHigh n bars i - rollLow n bars i = 0) :
    (rsvList n bars)[i]? = some (PF.num 50) := by
  have hget : (rsvList n bars)[i]? = some (fill50 (rsvRaw n bars i)) := by
    unfold rsvList
    rw [List.getElem?_map, List.getElem?_range hi, Option.map_some']
  rw [hget]
  have hbar : bars[i]? = some bars[i] := List.getElem?_eq_getElem hi
  have hwfb := hwf bars[i] (List.getElem_mem hi)
  have hlowm : bars[i].low ∈ win n i (bars.map Bar.low) := by
    apply mem_win_self hn (by simpa using hi)
    rw [List.getElem?_map, hbar, Option.map_some']
  have hhighm : bars[i].high ∈ win n i (bars.map Bar.high) := by
    apply mem_win_self hn (by simpa using hi)
    rw [List.getElem?_map, hbar, Option.map_some']
  have h1 : rollLow n bars i ≤ bars[i].low := qMin_le hlowm
  have h2 : bars[i].high ≤ rollHigh n bars i := le_qMax hhighm
  have hclose : closeAt bars i = bars[i].close := by
    simp [closeAt, hbar]
  have heq : closeAt bars i - rollLow n bars i = 0 := by
    rw [hclose]
    have hwf1 := hwfb.1
    have hwf2 := hwfb.2
    linarith
  unfold rsvRaw
  rw [heq, hr]
  simp [pfDivQ, pfTimes100, fill50]

/-- Bars with `high = low` on every bar but varying across bars, used by the
C8 counterexample. -/
def c8bars : List Bar := [⟨10, 10, 10⟩, ⟨20, 20, 20⟩]

/-- Counterexample for C8 as stated: with `high = low` on every bar but prices
varying, the second bar's rolling range is 10, so its RSV is 100, not 50. -/
theorem c8_counterexample :
    (∀ b ∈ c8bars, b.high = b.low) ∧
    (rsvList 9 c8bars)[1]? = some (PF.num 100) ∧
    (rsvList 9 c8bars)[1]? ≠ some (PF.num 50) := by
  refine ⟨?_, ?_, ?_⟩
  · intro b hb
    simp only [c8bars, List.mem_cons, List.not_mem_nil, or_false] at hb
    rcases hb with h | h <;> subst h <;> rfl
  · show (rsvList 9 c8bars)[1]? = some (PF.num 100)
    simp only [rsvList, c8bars, List.length_cons, List.length_nil]
    rw [List.getElem?_map, List.getElem?_range (by norm_num), Option.map_some']
    simp only [rsvRaw, rollHigh, rollLow, closeAt, win, List.map_cons, List.map_nil]
    norm_num [qMin, qMax, pfDivQ, pfTimes100, fill50, min_def, max_def]
    decide
  · show (rsvList 9 c8bars)[1]? ≠ some (PF.num 50)
    simp only [rsvList, c8bars, List.length_cons, List.length_nil]
    rw [List.getElem?_map, List.getElem?_range (by norm_num), Option.map_some']
    simp only [rsvRaw, rollHigh, rollLow, closeAt, win, List.map_cons, List.map_nil]
    norm_num [qMin, qMax, pfDivQ, pfTimes100, fill50, min_def, max_def]
    decide

/-- Constant bars used by the C8 witness. -/
def c8const : List Bar := [⟨7, 7, 7⟩, ⟨7, 7, 7⟩]

/-- Witness for C8 (amended) on a constant series: the rolling range at index 1
is zero and the RSV there is 50. -/
theorem c8_witness :
    (∀ b ∈ c8const, b.low ≤ b.close ∧ b.close ≤ b.high) ∧
    1 < c8const.length ∧
    rollHigh 9 c8const 1 - rollLow 9 c8const 1 = 0 ∧
    (rsvList 9 c8const)[1]? = some (PF.num 50) := by
  have hwf : ∀ b ∈ c8const, b.low ≤ b.close ∧ b.close ≤ b.high := by
    intro b hb
    simp only [c8const, List.mem_cons, List.not_mem_nil, or_false] at hb
    rcases hb with h | h <;> subst h <;> exact ⟨le_refl _, le_refl _⟩
  have hlen : 1 < c8const.length := by simp [c8const]
  have hr : rollHigh 9 c8const 1 - rollLow 9 c8const 1 = 0 := by
    simp only [rollHigh, rollLow, c8const, win, List.map_cons, List.map_nil]
    norm_num [qMin, qMax, min_def, max_def]
  exact ⟨hwf, hlen, hr, c8_rsv_fifty_on_zero_range 9 c8const 1 (by norm_num) hwf hlen hr⟩

/-! ### C9: newest-first crypto klines versus oldest-first equity daily -/

theorem tsOf_mkKlineRec (k : Kline) (p : Option ℚ) : tsOf (mkKlineRec k p) = k.ts := rfl

theorem kgo_map_tsOf (ks : List Kline) : ∀ p, (kgo ks p).map tsOf = ks.map Kline.ts := by
  induction ks with
  | nil => intro p; rfl
  | cons k ks ih => intro p; simp [kgo, tsOf_mkKlineRec, ih]

theorem dgo_map_trade_date (rows : List DRow) :
    ∀ p, (dgo rows p).map DItem.trade_date = rows.map DRow.date := by
  induction rows with
  | nil => intro p; rfl
  | cons r rs ih => intro p; simp [dgo, mkDItem, ih]

/-- C9: the two history endpoints disagree in ordering.  Whenever the provider
returns klines in ascending timestamp order, `get_crypto_klines` hands the
caller its records newest-first (timestamps descending).  `get_daily` caps the
rows to the most recent `maxRecords` (every discarded row's date is at most
every kept row's date) and hands the caller records oldest-first (dates
ascending), `min maxRecords (number of rows)` of them. -/
theorem c9_ordering_asymmetry (maxR : ℕ) (rows : List DRow)
    (interval : String) (limit : ℕ) (fetch : String → ℕ → List Kline)
    (hasc : ((fetch (resolveInterval interval) (clampLimit limit)).map Kline.ts).Sorted (· ≤ ·)) :
    ((getCryptoKlines interval limit fetch).map tsOf).Sorted (· ≥ ·) ∧
    ((getDaily maxR rows).map DItem.trade_date).Sorted (· ≤ ·) ∧
    (getDaily maxR rows).length = min maxR rows.length ∧
    (∃ dropped : List DRow,
      (selectRecent maxR rows ++ dropped).Perm rows ∧
      ∀ x ∈ dropped, ∀ y ∈ selectRecent maxR rows, x.date ≤ y.date) := by
  refine ⟨?_, ?_, ?_, ?_⟩
  · unfold getCryptoKlines
    rw [List.map_reverse]
    rw [show assembleKlines (fetch (resolveInterval interval) (clampLimit limit))
          = kgo (fetch (resolveInterval interval) (clampLimit limit)) none from rfl,
        kgo_map_tsOf]
    exact List.pairwise_reverse.mpr hasc
  · unfold getDaily
    rw [show assembleDaily (selectRecent maxR rows) = dgo (selectRecent maxR rows) none from rfl,
        dgo_map_trade_date]
    have hs : (selectRecent maxR rows).Sorted dateAsc := List.sorted_insertionSort dateAsc _
    exact List.pairwise_map.mpr hs
  · unfold getDaily
    rw [show assembleDaily (selectRecent maxR rows) = dgo (selectRecent maxR rows) none from rfl,
        dgo_length]
    unfold selectRecent
    rw [(List.perm_insertionSort dateAsc _).length_eq, List.length_take,
        (List.perm_insertionSort dateDesc rows).length_eq]
  · refine ⟨(List.insertionSort dateDesc rows).drop maxR, ?_, ?_⟩
    · have h1 : (selectRecent maxR rows).Perm ((List.insertionSort dateDesc rows).take maxR) :=
        List.perm_insertionSort dateAsc _
      have h2 := List.take_append_drop maxR (List.insertionSort dateDesc rows)
      have h3 := h1.append_right ((List.insertionSort dateDesc rows).drop maxR)
      rw [h2] at h3
      exact h3.trans (List.perm_insertionSort dateDesc rows)
    · intro x hx y hy
      have hsorted : (List.insertionSort dateDesc rows).Sorted dateDesc :=
        List.sorted_insertionSort dateDesc rows
      have h2 := List.take_append_drop maxR (List.insertionSort dateDesc rows)
      rw [← h2] at hsorted
      have hcross := (List.pairwise_append.mp hsorted).2.2
      have hy' : y ∈ (List.insertionSort dateDesc rows).take maxR :=
        (List.perm_insertionSort dateAsc _).mem_iff.mp hy
      exact hcross y hy' x hx

/-- Rows with dates 3, 1, 2 used by the C9 witness. -/
def c9rows : List DRow := [⟨3, 0, 0, 0, 9, 0⟩, ⟨1, 0, 0, 0, 10, 0⟩, ⟨2, 0, 0, 0, 12, 0⟩]

/-- Provider stub returning two klines in ascending timestamp order, used by
the C9 witness. -/
def c9fetch : String → ℕ → List Kline := fun _ _ => [⟨1, 0, 0, 0, 10, 0, 0⟩, ⟨2, 0, 0, 0, 12, 0, 0⟩]

/-- Witness for C9: ascending klines with timestamps 1, 2 come back as `[2, 1]`
(newest-first, descending), while daily rows with dates 3, 1, 2 capped to 2
records come back with dates `[2, 3]` (the two most recent, oldest-first). -/
theorem c9_witness :
    ((c9fetch (resolveInterval "daily") (clampLimit 100)).map Kline.ts).Sorted (· ≤ ·) ∧
    (getCryptoKlines "daily" 100 c9fetch).map tsOf = [2, 1] ∧
    ((getCryptoKlines "daily" 100 c9fetch).map tsOf).Sorted (· ≥ ·) ∧
    (getDaily 2 c9rows).map DItem.trade_date = [2, 3] ∧
    ((getDaily 2 c9rows).map DItem.trade_date).Sorted (· ≤ ·) ∧
    (getDaily 2 c9rows).length = min 2 c9rows.length := by
  have hasc : ((c9fetch (resolveInterval "daily") (clampLimit 100)).map Kline.ts).Sorted (· ≤ ·) := by
    simp [c9fetch, List.sorted_cons]
  have h := c9_ordering_asymmetry 2 c9rows "daily" 100 c9fetch hasc
  refine ⟨hasc, ?_, h.1, ?_, h.2.1, h.2.2.1⟩
  · unfold getCryptoKlines
    rw [List.map_reverse,
        show assembleKlines (c9fetch (resolveInterval "daily") (clampLimit 100))
          = kgo (c9fetch (resolveInterval "daily") (clampLimit 100)) none from rfl,
        kgo_map_tsOf]
    rfl
  · unfold getDaily
    rw [show assembleDaily (selectRecent 2 c9rows) = dgo (selectRecent 2 c9rows) none from rfl,
        dgo_map_trade_date]
    have hsel : selectRecent 2 c9rows
        = [⟨2, 0, 0, 0, 12, 0⟩, ⟨3, 0, 0, 0, 9, 0⟩] := by
      simp [selectRecent, c9rows, List.insertionSort, List.orderedInsert, dateDesc, dateAsc]
    rw [hsel]
    rfl

/-! ### C6: crypto trading-pair normalisation -/

/-- The requested quote currency as resolved by line 741:
`(vs_currency or default).upper()`. -/
def resolveVs (defVs : PyStr) (vsArg : Option PyStr) : PyStr :=
  (match vsArg with
    | some v => if v = [] then defVs else v
    | none => defVs).map upC

/-- C6: with `sym` the uppercased-stripped base symbol and `vs` the resolved
quote currency, `_normalize_crypto_symbol` returns `sym` itself whenever `sym`
ends in a supported quote currency and is strictly longer than it, or whenever
`sym` is itself a supported currency equal to `vs`; in every other case it
returns the concatenation `sym ++ vs`. -/
theorem c6_normalize_crypto (supported : List PyStr) (defVs : PyStr)
    (symbol : PyStr) (vsArg : Option PyStr) (h0 : symbol ≠ []) :
    ((∃ q ∈ supported, endsL (cCanon symbol) q ∧ q.length < (cCanon symbol).length) →
      normCryptoSymbol supported defVs symbol vsArg = cCanon symbol) ∧
    ((cCanon symbol ∈ supported ∧ cCanon symbol = resolveVs defVs vsArg) →
      normCryptoSymbol supported defVs symbol vsArg = cCanon symbol) ∧
    (¬ (∃ q ∈ supported, endsL (cCanon symbol) q ∧ q.length < (cCanon symbol).length) →
      ¬ (cCanon symbol ∈ supported ∧ cCanon symbol = resolveVs defVs vsArg) →
      normCryptoSymbol supported defVs symbol vsArg = cCanon symbol ++ resolveVs defVs vsArg) := by
  unfold normCryptoSymbol
  rw [if_neg h0]
  dsimp only
  have hvs : (match vsArg with
      | some v => if v = [] then defVs else v
      | none => defVs).map upC = resolveVs defVs vsArg := rfl
  refine ⟨?_, ?_, ?_⟩
  · intro hex
    have hfind : (supported.find? fun q =>
        decide (endsL (cCanon symbol) q ∧ q.length < (cCanon symbol).length)).isSome := by
      rw [List.find?_isSome]
      obtain ⟨q, hq, hprop⟩ := hex
      exact ⟨q, hq, decide_eq_true hprop⟩
    cases hf : supported.find? fun q =>
        decide (endsL (cCanon symbol) q ∧ q.length < (cCanon symbol).length) with
    | none => rw [hf] at hfind; cases hfind
    | some q => rfl
  · intro hmem
    cases hf : supported.find? fun q =>
        decide (endsL (cCanon symbol) q ∧ q.length < (cCanon symbol).length) with
    | none =>
      rw [hvs]
      rw [if_pos hmem]
    | some q => rfl
  · intro hex hmem
    have hfind : (supported.find? fun q =>
        decide (endsL (cCanon symbol) q ∧ q.length < (cCanon symbol).length)) = none := by
      rw [List.find?_eq_none]
      intro q hq hdec
      exact hex ⟨q, hq, of_decide_eq_true hdec⟩
    rw [hfind, hvs]
    rw [if_neg hmem]

/-- Witness for C6 with the default configuration: `BTC` expands to `BTCUSDT`,
`BTCUSDT` is already a pair and returned as-is, and a `USDT`-for-`USDT` query
returns `USDT` itself. -/
theorem c6_witness :
    normCryptoSymbol defaultSupported defaultVs (pyStr "BTC") none = pyStr "BTCUSDT" ∧
    normCryptoSymbol defaultSupported defaultVs (pyStr "BTCUSDT") none = pyStr "BTCUSDT" ∧
    normCryptoSymbol defaultSupported defaultVs (pyStr "USDT") (some (pyStr "USDT"))
      = pyStr "USDT" := by
  refine ⟨?_, ?_, ?_⟩
  · have h := (c6_normalize_crypto defaultSupported defaultVs (pyStr "BTC") none
      (by decide)).2.2 (by decide) (by decide)
    exact h.trans (by decide)
  · have h := (c6_normalize_crypto defaultSupported defaultVs (pyStr "BTCUSDT") none
      (by decide)).1 (by decide)
    exact h.trans (by decide)
  · have h := (c6_normalize_crypto defaultSupported defaultVs (pyStr "USDT") (some (pyStr "USDT"))
      (by decide)).2.1 (by decide)
    exact h.trans (by decide)

/-! ### Character-class lemmas for the symbol-normaliser proofs -/

theorem DigN_upC {n : ℕ} (h : DigN n) : upC n = n := by
  have hl : ¬ LowN n := by unfold DigN at h; unfold LowN; omega
  unfold upC
  rw [if_neg hl]

theorem DigN_lowC {n : ℕ} (h : DigN n) : lowC n = n := by
  have hl : ¬ UpN n := by unfold DigN at h; unfold UpN; omega
  unfold lowC
  rw [if_neg hl]

theorem DigN_not_sp {n : ℕ} (h : DigN n) : isSp n = false := by
  unfold DigN at h
  unfold isSp
  exact decide_eq_false (by omega)

theorem AlN_upC {n : ℕ} (h : AlN n) : AlN (upC n) := by
  unfold AlN UpN LowN at *
  unfold upC LowN
  split_ifs <;> omega

theorem upC_upC (n : ℕ) : upC (upC n) = upC n := by
  unfold upC LowN
  split_ifs <;> omega

theorem isSp_upC (n : ℕ) : isSp (upC n) = isSp n := by
  unfold upC LowN isSp
  split_ifs with h
  · rw [decide_eq_false (by omega), decide_eq_false (by omega)]
  · rfl

theorem dropWhile_false_of {α : Type} {p : α → Bool} :
    ∀ {l : List α}, (∀ x ∈ l, p x = false) → l.dropWhile p = l := by
  intro l h
  cases l with
  | nil => rfl
  | cons a t =>
    rw [List.dropWhile_cons, if_neg]
    rw [h a (List.mem_cons_self a t)]
    exact Bool.false_ne_true

theorem pyStrip_of {l : PyStr} (h : ∀ x ∈ l, isSp x = false) : pyStrip l = l := by
  unfold pyStrip
  rw [dropWhile_false_of h]
  rw [dropWhile_false_of (fun x hx => h x (List.mem_reverse.mp hx))]
  exact List.reverse_reverse l

theorem map_upC_digits {l : PyStr} (h : DigStr l) : l.map upC = l := by
  have hall : ∀ x ∈ l, upC x = id x := fun x hx => DigN_upC (h x hx)
  rw [List.map_congr_left hall, List.map_id]

theorem upperStrip_digits {l : PyStr} (h : DigStr l) : upperStrip l = l := by
  unfold upperStrip
  rw [pyStrip_of (fun x hx => DigN_not_sp (h x hx)), map_upC_digits h]

/-! ### C4: routing of bare six-digit codes -/

/-- C4: for a bare six-digit code (character codes 48–57; `6` = 54, `9` = 57,
`5` = 53, `0`–`3` = 48–51), the normaliser returns the code with `.SH` appended
exactly when the leading digit is 6, 9 or 5, with `.SZ` appended exactly when
the leading digit is 0, 1, 2 or 3, and returns the code unchanged (routing it
to neither exchange) when the leading digit is 4, 7 or 8. -/
theorem c4_six_digit_routing (a b c d e f : ℕ)
    (ha : DigN a) (hb : DigN b) (hc : DigN c) (hd : DigN d) (he : DigN e) (hf : DigN f) :
    (correctCode [a, b, c, d, e, f] = [a, b, c, d, e, f] ++ pyStr ".SH"
      ↔ (a = 54 ∨ a = 57 ∨ a = 53)) ∧
    (correctCode [a, b, c, d, e, f] = [a, b, c, d, e, f] ++ pyStr ".SZ"
      ↔ (a = 48 ∨ a = 49 ∨ a = 50 ∨ a = 51)) ∧
    (¬ (a = 54 ∨ a = 57 ∨ a = 53) → ¬ (a = 48 ∨ a = 49 ∨ a = 50 ∨ a = 51) →
      correctCode [a, b, c, d, e, f] = [a, b, c, d, e, f]) := by
  have hdig : DigStr [a, b, c, d, e, f] := by
    intro x hx
    simp only [List.mem_cons, List.not_mem_nil, or_false] at hx
    rcases hx with rfl | rfl | rfl | rfl | rfl | rfl <;> assumption
  have hstd : ¬ matchStandard [a, b, c, d, e, f] := by
    rintro (⟨h9, -, -⟩ | ⟨h8, -, -⟩ | ⟨-, -, -, hdrop⟩)
    · simp at h9
    · simp at h8
    · have hd3 : [a, b, c, d, e, f].drop ([a, b, c, d, e, f].length - 3) = [d, e, f] := rfl
      rw [hd3, show pyStr ".US" = [46, 85, 83] from rfl] at hdrop
      simp only [List.cons.injEq, and_true] at hdrop
      unfold DigN at hd
      omega
  have ht : upperStrip [a, b, c, d, e, f] = [a, b, c, d, e, f] := upperStrip_digits hdig
  have hlow : ∀ x, DigN x → lowC x = x := fun x hx => DigN_lowC hx
  have h3 : rule3 [a, b, c, d, e, f] = none := by simp [rule3]
  have h4 : rule4 [a, b, c, d, e, f] = none := by simp [rule4]
  have h5 : rule5 [a, b, c, d, e, f] = none := by simp [rule5]
  have h6 : rule6 [a, b, c, d, e, f] = none := by
    unfold rule6
    dsimp only
    rw [if_neg]
    rintro ⟨h1, -⟩
    rw [show (List.map lowC [a, b, c, d, e, f]).take 2 = [lowC a, lowC b] from rfl,
        show pyStr "hk" = [104, 107] from rfl] at h1
    simp only [List.cons.injEq, and_true] at h1
    have hla := hlow a ha
    unfold DigN at ha
    omega
  have h7 : rule7 [a, b, c, d, e, f] = none := by
    unfold rule7
    dsimp only
    rw [if_neg]
    rintro ⟨-, -, -, h1⟩
    rw [show (List.map lowC [a, b, c, d, e, f]).length = 6 from rfl] at h1
    rw [show (List.map lowC [a, b, c, d, e, f]).drop (6 - 3) = [lowC d, lowC e, lowC f] from rfl,
        show pyStr ".hk" = [46, 104, 107] from rfl] at h1
    simp only [List.cons.injEq, and_true] at h1
    have hld := hlow d hd
    unfold DigN at hd
    omega
  have h8 : rule8 [a, b, c, d, e, f] = none := by
    unfold rule8
    dsimp only
    rw [if_neg]
    rintro ⟨-, -, h1, -⟩
    rw [show (List.map lowC [a, b, c, d, e, f]).take 3 = [lowC a, lowC b, lowC c] from rfl,
        show pyStr "us." = [117, 115, 46] from rfl] at h1
    simp only [List.cons.injEq, and_true] at h1
    have hla := hlow a ha
    unfold DigN at ha
    omega
  have h9 : rule9 [a, b, c, d, e, f] = none := by simp [rule9]
  have hcc : correctCode [a, b, c, d, e, f] = (rulesOut [a, b, c, d, e, f]).getD [a, b, c, d, e, f] := by
    unfold correctCode
    rw [if_neg hstd]
    dsimp only
    rw [ht]
  by_cases hsh : a = 54 ∨ a = 57 ∨ a = 53
  · have h2 : rule2 [a, b, c, d, e, f] = some ([a, b, c, d, e, f] ++ pyStr ".SH") := by
      unfold rule2
      rw [if_pos ⟨rfl, hdig⟩, if_pos]
      rcases hsh with h | h | h <;> subst h
      · exact Or.inl rfl
      · exact Or.inr (Or.inl rfl)
      · exact Or.inr (Or.inr rfl)
    have hval : correctCode [a, b, c, d, e, f] = [a, b, c, d, e, f] ++ pyStr ".SH" := by
      rw [hcc]
      unfold rulesOut
      rw [h2, Option.some_orElse]
      rfl
    refine ⟨iff_of_true hval hsh, ?_, ?_⟩
    · apply iff_of_false
      · rw [hval]
        intro hcon
        have := List.append_cancel_left hcon
        rw [show pyStr ".SH" = [46, 83, 72] from rfl,
            show pyStr ".SZ" = [46, 83, 90] from rfl] at this
        simp at this
      · omega
    · intro hno
      exact absurd hsh hno
  · by_cases hsz : a = 48 ∨ a = 49 ∨ a = 50 ∨ a = 51
    · have h2 : rule2 [a, b, c, d, e, f] = some ([a, b, c, d, e, f] ++ pyStr ".SZ") := by
        unfold rule2
        rw [if_pos ⟨rfl, hdig⟩, if_neg, if_pos]
        · rcases hsz with h | h | h | h <;> subst h
          · exact Or.inl rfl
          · exact Or.inr (Or.inl rfl)
          · exact Or.inr (Or.inr (Or.inl rfl))
          · exact Or.inr (Or.inr (Or.inr rfl))
        · rw [show [a, b, c, d, e, f].take 1 = [a] from rfl,
              show pyStr "6" = [54] from rfl, show pyStr "9" = [57] from rfl,
              show pyStr "5" = [53] from rfl]
          simp only [List.cons.injEq, and_true]
          omega
      have hval : correctCode [a, b, c, d, e, f] = [a, b, c, d, e, f] ++ pyStr ".SZ" := by
        rw [hcc]
        unfold rulesOut
        rw [h2, Option.some_orElse]
        rfl
      refine ⟨?_, iff_of_true hval hsz, ?_⟩
      · apply iff_of_false
        · rw [hval]
          intro hcon
          have := List.append_cancel_left hcon
          rw [show pyStr ".SZ" = [46, 83, 90] from rfl,
              show pyStr ".SH" = [46, 83, 72] from rfl] at this
          simp at this
        · exact hsh
      · intro _ hno
        exact absurd hsz hno
    · have h2 : rule2 [a, b, c, d, e, f] = none := by
        unfold rule2
        rw [if_pos ⟨rfl, hdig⟩, if_neg, if_neg]
        · rw [show [a, b, c, d, e, f].take 1 = [a] from rfl,
              show pyStr "0" = [48] from rfl, show pyStr "1" = [49] from rfl,
              show pyStr "2" = [50] from rfl, show pyStr "3" = [51] from rfl]
          simp only [List.cons.injEq, and_true]
          omega
        · rw [show [a, b, c, d, e, f].take 1 = [a] from rfl,
              show pyStr "6" = [54] from rfl, show pyStr "9" = [57] from rfl,
              show pyStr "5" = [53] from rfl]
          simp only [List.cons.injEq, and_true]
          omega
      have hval : correctCode [a, b, c, d, e, f] = [a, b, c, d, e, f] := by
        rw [hcc]
        unfold rulesOut
        rw [h2, Option.none_orElse, h3, Option.none_orElse, h4, Option.none_orElse,
            h5, Option.none_orElse, h6, Option.none_orElse, h7, Option.none_orElse,
            h8, Option.none_orElse, h9]
        rfl
      refine ⟨?_, ?_, fun _ _ => hval⟩
      · apply iff_of_false
        · rw [hval]
          intro hcon
          have := congrArg List.length hcon
          simp at this
          exact absurd this (by decide)
        · exact hsh
      · apply iff_of_false
        · rw [hval]
          intro hcon
          have := congrArg List.length hcon
          simp at this
          exact absurd this (by decide)
        · exact hsz

/-- Witness for C4 at the codes `601234` (leading 6 routes to `.SH`), `001234`
(leading 0 routes to `.SZ`) and `401234` (leading 4 routes to neither). -/
theorem c4_witness :
    correctCode (pyStr "601234") = pyStr "601234.SH" ∧
    correctCode (pyStr "001234") = pyStr "001234.SZ" ∧
    correctCode (pyStr "401234") = pyStr "401234" := by
  have h6 := c4_six_digit_routing 54 48 49 50 51 52
    (by decide) (by decide) (by decide) (by decide) (by decide) (by decide)
  have h0 := c4_six_digit_routing 48 48 49 50 51 52
    (by decide) (by decide) (by decide) (by decide) (by decide) (by decide)
  have h4 := c4_six_digit_routing 52 48 49 50 51 52
    (by decide) (by decide) (by decide) (by decide) (by decide) (by decide)
  refine ⟨?_, ?_, ?_⟩
  · have := h6.1.mpr (Or.inl rfl)
    exact (by decide : pyStr "601234" = [54, 48, 49, 50, 51, 52]) ▸ this
  · have := h0.2.1.mpr (Or.inl rfl)
    exact (by decide : pyStr "001234" = [48, 48, 49, 50, 51, 52]) ▸ this
  · have := h4.2.2 (by decide) (by decide)
    exact (by decide : pyStr "401234" = [52, 48, 49, 50, 51, 52]) ▸ this

/-! ### C5: behaviour when no correction rule fires -/

/-- C5 (amended): on an input that neither matches the canonical pattern nor
fires any correction rule, `_validate_and_correct_stock_code` returns the
stripped-and-uppercased input (line 174 returns the reassigned `ts_code` of
line 124) — which equals the original input exactly when stripping and
uppercasing leave it unchanged. -/
theorem c5_fallthrough_returns_stripped_upper (s : PyStr)
    (h1 : ¬ matchStandard s) (h2 : rulesOut (upperStrip s) = none) :
    correctCode s = upperStrip s ∧ (upperStrip s = s → correctCode s = s) := by
  have hval : correctCode s = upperStrip s := by
    unfold correctCode
    rw [if_neg h1]
    dsimp only
    rw [h2]
    rfl
  exact ⟨hval, fun hfix => hval.trans hfix⟩

/-- Counterexample for C5 as stated: no rule fires on `xyz123`, yet the
function returns `XYZ123`, not the input unchanged. -/
theorem c5_counterexample :
    ¬ matchStandard (pyStr "xyz123") ∧
    rulesOut (upperStrip (pyStr "xyz123")) = none ∧
    correctCode (pyStr "xyz123") = pyStr "XYZ123" ∧
    pyStr "XYZ123" ≠ pyStr "xyz123" := by decide

/-- Witness for C5 (amended): ` 600000.abc ` (unknown suffix alias `ABC`, so
every rule falls through) comes back stripped and uppercased, and the already
canonical-case fall-through input `600000.ABC` comes back unchanged. -/
theorem c5_witness :
    ¬ matchStandard (pyStr " 600000.abc ") ∧
    rulesOut (upperStrip (pyStr " 600000.abc ")) = none ∧
    correctCode (pyStr " 600000.abc ") = pyStr "600000.ABC" ∧
    correctCode (pyStr "600000.ABC") = pyStr "600000.ABC" := by
  have h1 : ¬ matchStandard (pyStr " 600000.abc ") := by decide
  have h2 : rulesOut (upperStrip (pyStr " 600000.abc ")) = none := by decide
  have h := c5_fallthrough_returns_stripped_upper (pyStr " 600000.abc ") h1 h2
  have h1' : ¬ matchStandard (pyStr "600000.ABC") := by decide
  have h2' : rulesOut (upperStrip (pyStr "600000.ABC")) = none := by decide
  have h' := c5_fallthrough_returns_stripped_upper (pyStr "600000.ABC") h1' h2'
  exact ⟨h1, h2, h.1.trans (by decide), h'.2 (by decide)⟩

/-! ### C7: idempotence of the symbol normaliser -/

theorem dropWhile_idem {α : Type} (p : α → Bool) :
    ∀ l : List α, (l.dropWhile p).dropWhile p = l.dropWhile p := by
  intro l
  induction l with
  | nil => rfl
  | cons a t ih =>
    rw [List.dropWhile_cons]
    split_ifs with h
    · exact ih
    · rw [List.dropWhile_cons, if_neg h]

theorem dropWhile_head_false {α : Type} (p : α → Bool) :
    ∀ l : List α, l.dropWhile p = [] ∨ ∃ a t, l.dropWhile p = a :: t ∧ p a = false := by
  intro l
  induction l with
  | nil => exact Or.inl rfl
  | cons a t ih =>
    rw [List.dropWhile_cons]
    split_ifs with h
    · exact ih
    · exact Or.inr ⟨a, t, rfl, by simpa using h⟩

theorem getLast?_dropWhile {α : Type} (p : α → Bool) (l : List α)
    (hne : l.dropWhile p ≠ []) : (l.dropWhile p).getLast? = l.getLast? := by
  obtain ⟨w, hw⟩ := List.dropWhile_suffix p (l := l)
  conv_rhs => rw [← hw]
  rw [List.getLast?_append]
  cases hgl : (l.dropWhile p).getLast? with
  | none => exact absurd (List.getLast?_eq_none_iff.mp hgl) hne
  | some x => rfl

theorem pyStrip_idem (l : PyStr) : pyStrip (pyStrip l) = pyStrip l := by
  by_cases hBe : (((l.dropWhile isSp).reverse).dropWhile isSp) = []
  · show pyStrip ((((l.dropWhile isSp).reverse).dropWhile isSp).reverse) = _
    rw [hBe]
    rw [show pyStrip (([] : PyStr).reverse) = [] from rfl]
    show ([] : PyStr) = pyStrip l
    unfold pyStrip
    rw [hBe]
    rfl
  · have hAne : l.dropWhile isSp ≠ [] := by
      intro hA
      apply hBe
      rw [hA]
      rfl
    obtain ⟨a0, t0, hA0, hp0⟩ := (dropWhile_head_false isSp l).resolve_left hAne
    have hlastB : (((l.dropWhile isSp).reverse).dropWhile isSp).getLast? = some a0 := by
      rw [getLast?_dropWhile isSp _ hBe, List.getLast?_reverse, hA0]
      rfl
    have hrevhead : ((((l.dropWhile isSp).reverse).dropWhile isSp).reverse).head? = some a0 := by
      rw [List.head?_reverse]
      exact hlastB
    have hdw : ((((l.dropWhile isSp).reverse).dropWhile isSp).reverse).dropWhile isSp
        = (((l.dropWhile isSp).reverse).dropWhile isSp).reverse := by
      cases hrev : (((l.dropWhile isSp).reverse).dropWhile isSp).reverse with
      | nil => rfl
      | cons x xs =>
        rw [hrev] at hrevhead
        have hx : x = a0 := by
          simpa using hrevhead
        rw [List.dropWhile_cons, if_neg]
        rw [hx, hp0]
        exact Bool.false_ne_true
    show pyStrip ((((l.dropWhile isSp).reverse).dropWhile isSp).reverse) = _
    unfold pyStrip
    rw [hdw, List.reverse_reverse, dropWhile_idem]

theorem dropWhile_map_upC (l : PyStr) :
    (l.map upC).dropWhile isSp = (l.dropWhile isSp).map upC := by
  rw [List.dropWhile_map]
  rw [show (isSp ∘ upC) = isSp from funext isSp_upC]

theorem pyStrip_map_upC (l : PyStr) : pyStrip (l.map upC) = (pyStrip l).map upC := by
  unfold pyStrip
  rw [dropWhile_map_upC, ← List.map_reverse, dropWhile_map_upC, ← List.map_reverse]

theorem map_upC_idem (l : PyStr) : (l.map upC).map upC = l.map upC := by
  rw [List.map_map]
  exact List.map_congr_left fun x _ => upC_upC x

theorem upperStrip_idem (l : PyStr) : upperStrip (upperStrip l) = upperStrip l := by
  unfold upperStrip
  rw [pyStrip_map_upC, map_upC_idem, pyStrip_idem]

theorem matchStandard_sh {code : PyStr} (hlen : code.length = 6) (hdig : DigStr code) :
    matchStandard (code ++ pyStr ".SH") := by
  left
  refine ⟨?_, ?_, Or.inr ?_⟩
  · rw [List.length_append, hlen]
    rfl
  · rw [show (6 : ℕ) = code.length from hlen.symm, List.take_left]
    exact hdig
  · rw [show (6 : ℕ) = code.length from hlen.symm, List.drop_left]

theorem matchStandard_sz {code : PyStr} (hlen : code.length = 6) (hdig : DigStr code) :
    matchStandard (code ++ pyStr ".SZ") := by
  left
  refine ⟨?_, ?_, Or.inl ?_⟩
  · rw [List.length_append, hlen]
    rfl
  · rw [show (6 : ℕ) = code.length from hlen.symm, List.take_left]
    exact hdig
  · rw [show (6 : ℕ) = code.length from hlen.symm, List.drop_left]

theorem matchStandard_hk {code : PyStr} (hlen : code.length = 5) (hdig : DigStr code) :
    matchStandard (code ++ pyStr ".HK") := by
  right; left
  refine ⟨?_, ?_, ?_⟩
  · rw [List.length_append, hlen]
    rfl
  · rw [show (5 : ℕ) = code.length from hlen.symm, List.take_left]
    exact hdig
  · rw [show (5 : ℕ) = code.length from hlen.symm, List.drop_left]

theorem matchStandard_us {tick : PyStr} (h1 : 1 ≤ tick.length) (h5 : tick.length ≤ 5)
    (hal : AlStr tick) : matchStandard (tick ++ pyStr ".US") := by
  right; right
  have hlen : (tick ++ pyStr ".US").length = tick.length + 3 := by
    rw [List.length_append]
    rfl
  have hsub : (tick ++ pyStr ".US").length - 3 = tick.length := by omega
  refine ⟨by omega, by omega, ?_, ?_⟩
  · rw [hsub, List.take_left]
    exact hal
  · rw [hsub, List.drop_left]

theorem zfill5_len {ds : PyStr} (h : ds.length ≤ 5) : (zfill5 ds).length = 5 := by
  unfold zfill5
  rw [List.length_append, List.length_replicate]
  omega

theorem zfill5_dig {ds : PyStr} (h : DigStr ds) : DigStr (zfill5 ds) := by
  intro x hx
  rcases List.mem_append.mp hx with hx | hx
  · rw [List.eq_of_mem_replicate hx]
    exact ⟨le_refl 48, by omega⟩
  · exact h x hx

theorem rule2_std {t r : PyStr} (h : rule2 t = some r) : matchStandard r := by
  unfold rule2 at h
  split_ifs at h with h1 h2 h3
  · injection h with h'
    subst h'
    exact matchStandard_sh h1.1 h1.2
  · injection h with h'
    subst h'
    exact matchStandard_sz h1.1 h1.2

theorem rule3_std {t r : PyStr} (h : rule3 t = some r) : matchStandard r := by
  unfold rule3 at h
  dsimp only at h
  split_ifs at h with h1 h2
  · injection h with h'
    subst h'
    refine matchStandard_sh ?_ h1.2.2
    rw [List.length_drop, h1.1]
  · injection h with h'
    subst h'
    refine matchStandard_sz ?_ h2.2.2
    rw [List.length_drop, h2.1]

theorem rule4_std {t r : PyStr} (h : rule4 t = some r) : matchStandard r := by
  unfold rule4 at h
  dsimp only at h
  split_ifs at h with h1 h2 h3
  · injection h with h'
    subst h'
    refine matchStandard_sh ?_ h1.2.1
    rw [List.length_take]
    rcases h1.1 with h | h <;> rw [h] <;> rfl
  · injection h with h'
    subst h'
    refine matchStandard_sz ?_ h1.2.1
    rw [List.length_take]
    rcases h1.1 with h | h <;> rw [h] <;> rfl

theorem rule5_std {t r : PyStr} (h : rule5 t = some r) : matchStandard r := by
  unfold rule5 at h
  dsimp only at h
  split_ifs at h with h1
  · injection h with h'
    subst h'
    obtain ⟨hlen, hsh, hdig⟩ := h1
    have hcode : ((t.map lowC).drop 3).length = 6 := by
      rw [List.length_drop, hlen]
    rcases hsh with hsh | hsh
    · have ht2 : (t.map lowC).take 2 = [115, 104] := by
        have hsub : (t.map lowC).take 2 = ((t.map lowC).take 3).take 2 := by
          rw [List.take_take]
          norm_num
        rw [hsub, hsh]
        rfl
      rw [ht2, show ([115, 104] : PyStr).map upC = [83, 72] from rfl,
          List.append_assoc,
          show pyStr "." ++ ([83, 72] : PyStr) = pyStr ".SH" from rfl]
      exact matchStandard_sh hcode hdig
    · have ht2 : (t.map lowC).take 2 = [115, 122] := by
        have hsub : (t.map lowC).take 2 = ((t.map lowC).take 3).take 2 := by
          rw [List.take_take]
          norm_num
        rw [hsub, hsh]
        rfl
      rw [ht2, show ([115, 122] : PyStr).map upC = [83, 90] from rfl,
          List.append_assoc,
          show pyStr "." ++ ([83, 90] : PyStr) = pyStr ".SZ" from rfl]
      exact matchStandard_sz hcode hdig

theorem rule6_std {t r : PyStr} (h : rule6 t = some r) : matchStandard r := by
  unfold rule6 at h
  dsimp only at h
  split_ifs at h with h1
  · injection h with h'
    subst h'
    exact matchStandard_hk (zfill5_len h1.2.2.1) (zfill5_dig h1.2.2.2)

theorem rule7_std {t r : PyStr} (h : rule7 t = some r) : matchStandard r := by
  unfold rule7 at h
  dsimp only at h
  split_ifs at h with h1
  · injection h with h'
    subst h'
    refine matchStandard_hk (zfill5_len ?_) (zfill5_dig h1.2.2.1)
    rw [List.length_take]
    omega

theorem rule8_std {t r : PyStr} (h : rule8 t = some r) : matchStandard r := by
  unfold rule8 at h
  dsimp only at h
  split_ifs at h with h1
  · injection h with h'
    subst h'
    obtain ⟨h4, h8, hus, hal⟩ := h1
    refine matchStandard_us ?_ ?_ ?_
    · rw [List.length_map, List.length_drop]
      omega
    · rw [List.length_map, List.length_drop]
      omega
    · intro x hx
      obtain ⟨y, hy, rfl⟩ := List.mem_map.mp hx
      exact AlN_upC (hal y hy)

theorem rule9_std {t r : PyStr} (h : rule9 t = some r) : matchStandard r := by
  unfold rule9 at h
  split_ifs at h with h1
  · injection h with h'
    subst h'
    exact matchStandard_us h1.1 h1.2.1 h1.2.2

theorem rulesOut_std {t r : PyStr} (h : rulesOut t = some r) : matchStandard r := by
  unfold rulesOut at h
  cases h2 : rule2 t with
  | some v =>
    rw [h2, Option.some_orElse] at h
    injection h with h'
    subst h'
    exact rule2_std h2
  | none =>
  rw [h2, Option.none_orElse] at h
  cases h3 : rule3 t with
  | some v =>
    rw [h3, Option.some_orElse] at h
    injection h with h'
    subst h'
    exact rule3_std h3
  | none =>
  rw [h3, Option.none_orElse] at h
  cases h4 : rule4 t with
  | some v =>
    rw [h4, Option.some_orElse] at h
    injection h with h'
    subst h'
    exact rule4_std h4
  | none =>
  rw [h4, Option.none_orElse] at h
  cases h5 : rule5 t with
  | some v =>
    rw [h5, Option.some_orElse] at h
    injection h with h'
    subst h'
    exact rule5_std h5
  | none =>
  rw [h5, Option.none_orElse] at h
  cases h6 : rule6 t with
  | some v =>
    rw [h6, Option.some_orElse] at h
    injection h with h'
    subst h'
    exact rule6_std h6
  | none =>
  rw [h6, Option.none_orElse] at h
  cases h7 : rule7 t with
  | some v =>
    rw [h7, Option.some_orElse] at h
    injection h with h'
    subst h'
    exact rule7_std h7
  | none =>
  rw [h7, Option.none_orElse] at h
  cases h8 : rule8 t with
  | some v =>
    rw [h8, Option.some_orElse] at h
    injection h with h'
    subst h'
    exact rule8_std h8
  | none =>
  rw [h8, Option.none_orElse] at h
  exact rule9_std h

/-- C7: `_validate_and_correct_stock_code` is idempotent — every output is
either a canonical code (returned as-is on a second pass) or the
stripped-uppercased fall-through, on which stripping, uppercasing and every
rule act the same way again. -/
theorem c7_normalize_idempotent (l : PyStr) :
    correctCode (correctCode l) = correctCode l := by
  by_cases hstd : matchStandard l
  · have h1 : correctCode l = l := by
      unfold correctCode
      rw [if_pos hstd]
    rw [h1]
    exact h1
  · cases hro : rulesOut (upperStrip l) with
    | some r =>
      have h1 : correctCode l = r := by
        unfold correctCode
        rw [if_neg hstd]
        dsimp only
        rw [hro]
        rfl
      rw [h1]
      unfold correctCode
      rw [if_pos (rulesOut_std hro)]
    | none =>
      have h1 : correctCode l = upperStrip l := by
        unfold correctCode
        rw [if_neg hstd]
        dsimp only
        rw [hro]
        rfl
      rw [h1]
      by_cases hstd2 : matchStandard (upperStrip l)
      · unfold correctCode
        rw [if_pos hstd2]
      · unfold correctCode
        rw [if_neg hstd2]
        dsimp only
        rw [upperStrip_idem, hro]
        rfl
